import Mathlib

/-!
Shallow embedding of `git-weekly-report.py` (single-file Python tool that
turns a week of git commits into a textual weekly report).

External effects (the `git` subprocess and the HTTP calls to the
OpenRouter API) are modelled as explicit inputs: the git log output is a
list of lines, the stat output of `git show --stat` is an optional list
of lines (`none` = the subprocess raised), and each network call's
outcome is a `NetResult` value.  Everything else is translated directly
from the Python source.
-/

/-! ## String helpers mirroring Python primitives -/

/-- Python's substring test `pat in s`, on character lists:
true iff `pat` occurs contiguously inside `cs`. -/
def containsSub (cs pat : List Char) : Bool :=
  match cs with
  | [] => pat.isEmpty
  | _ :: rest => pat.isPrefixOf cs || containsSub rest pat

/-- Python's `pat in s` on strings. -/
def pyIn (pat s : String) : Bool :=
  containsSub s.data pat.data

/-- Python's `str.lower()` (ASCII case folding; the CJK keyword characters
are unaffected in both languages). -/
def pyLower (s : String) : String :=
  String.mk (s.data.map Char.toLower)

/-! ## Data model -/

/-- A parsed commit record, as built by `get_commits_last_week`:
`{'hash': …, 'author': …, 'date': …, 'message': …}`; the optional
`original_message` key is added by `enhance_commit_messages`. -/
structure Commit where
  hash : String
  author : String
  date : String
  message : String
  original_message : Option String := none
deriving DecidableEq

/-- Per-commit stats `{'files_changed': …, 'insertions': …, 'deletions': …}`. -/
structure CommitStats where
  files_changed : Nat
  insertions : Nat
  deletions : Nat
deriving DecidableEq

/-! ## History fetcher: parsing `git log` output lines
(`get_commits_last_week`, lines 136–148 of the source) -/

/-- Split off the part of `cs` before the first occurrence of `sep`,
returning `(before, after)`, or `none` when `sep` does not occur. -/
def splitFirst (sep : Char) : List Char → Option (List Char × List Char)
  | [] => none
  | c :: rest =>
    if c = sep then some ([], rest)
    else
      match splitFirst sep rest with
      | none => none
      | some (pre, post) => some (c :: pre, post)

/-- Python's `s.split(sep, k)`: at most `k` splits, so at most `k+1` parts. -/
def splitLimit (sep : Char) : Nat → List Char → List (List Char)
  | 0, cs => [cs]
  | k + 1, cs =>
    match splitFirst sep cs with
    | none => [cs]
    | some (pre, post) => pre :: splitLimit sep k post

/-- One iteration of the parse loop in `get_commits_last_week`:
skip falsy (empty) lines, `split('|', 3)`, keep only lines giving
exactly four parts. -/
def parseLogLine (line : String) : Option Commit :=
  if line.isEmpty then none
  else
    match splitLimit '|' 3 line.data with
    | [h, a, d, m] => some ⟨String.mk h, String.mk a, String.mk d, String.mk m, none⟩
    | _ => none

/-- The commit list built from the `git log` output lines. -/
def get_commits_from_lines (lines : List String) : List Commit :=
  lines.filterMap parseLogLine

/-- The guard under which the source appends a commit for a line:
the line is non-empty and `line.split('|', 3)` has exactly 4 parts. -/
def wellFormedLine (line : String) : Bool :=
  !line.isEmpty && (splitLimit '|' 3 line.data).length == 4

/-! ## Categorizer (`categorize_commits`, lines 235–262) -/

def featureKeywords : List String :=
  ["feat", "feature", "add", "新增", "添加", "implement", "create"]

def fixKeywords : List String :=
  ["fix", "bug", "修复", "解决", "patch", "resolve"]

def docKeywords : List String :=
  ["doc", "readme", "文档", "说明", "update", "changelog"]

def refactorKeywords : List String :=
  ["refactor", "optimize", "优化", "重构", "improve", "enhance"]

def testKeywords : List String :=
  ["test", "测试", "spec", "unit", "coverage"]

/-- `any(keyword in message for keyword in kws)`. -/
def matchesAny (kws : List String) (message : String) : Bool :=
  kws.any (fun k => pyIn k message)

/-- The label a single commit message is filed under: the if/elif chain of
`categorize_commits` applied to the lower-cased message. -/
def classify (message : String) : String :=
  let m := pyLower message
  if matchesAny featureKeywords m then "功能开发"
  else if matchesAny fixKeywords m then "Bug修复"
  else if matchesAny docKeywords m then "文档更新"
  else if matchesAny refactorKeywords m then "代码优化"
  else if matchesAny testKeywords m then "测试相关"
  else "其他"

/-- The six bucket labels, in the fixed insertion order of the
`categories` dict literal. -/
def categoryLabels : List String :=
  ["功能开发", "Bug修复", "文档更新", "代码优化", "测试相关", "其他"]

/-- `categorize_commits`: the dict from label to the commits filed under
it, in fetch order (the loop appends each commit to its bucket). -/
def categorize_commits (commits : List Commit) : List (String × List Commit) :=
  categoryLabels.map (fun cat => (cat, commits.filter (fun c => classify c.message == cat)))

/-! ## Stat fetcher (`get_commit_stats`, lines 188–219) -/

/-- Python's `\s` character class restricted to ASCII, the alphabet these
regexes ever see in `git show --stat` output. -/
def isSpaceChar (c : Char) : Bool :=
  c = ' ' || c = '\t' || c = '\n' || c = '\x0d' || c = '\x0c' || c = '\x0b'

/-- Split a character list into its maximal leading digit run and the rest. -/
def takeDigits : List Char → List Char × List Char
  | [] => ([], [])
  | c :: rest =>
    if c.isDigit then
      let p := takeDigits rest
      (c :: p.1, p.2)
    else ([], c :: rest)

/-- Numeric value of a digit run, as Python's `int(...)` of the capture. -/
def digitsToNat (cs : List Char) : Nat :=
  cs.foldl (fun n c => 10 * n + (c.toNat - 48)) 0

/-- After the digit run, the pattern `\s+word` must match: at least one
whitespace character, then (since `word` starts with a letter, greedy
`\s+` cannot backtrack into it) `word` right after the maximal
whitespace run. -/
def wsThenWord (word : List Char) : List Char → Bool
  | [] => false
  | c :: rest => isSpaceChar c && word.isPrefixOf (rest.dropWhile isSpaceChar)

/-- `re.search(r'(\d+)\s+word', line)`: try each start position left to
right; a match needs a digit run followed by whitespace and `word`; the
captured group is the digit run's value.  (Starting inside a digit run
can never succeed where its start failed, so position-by-position
scanning is exactly the regex engine's behaviour.) -/
def searchNumWord (word : List Char) : List Char → Option Nat
  | [] => none
  | c :: rest =>
    if c.isDigit then
      let p := takeDigits (c :: rest)
      if wsThenWord word p.2 then some (digitsToNat p.1)
      else searchNumWord word rest
    else searchNumWord word rest

/-- The body of the stat-parsing loop: on a line containing both
`' file'` and `'changed'`, each field is overwritten by its regex capture
when its pattern matches, and left alone otherwise; other lines leave
the stats unchanged. -/
def statLineUpdate (stats : CommitStats) (line : String) : CommitStats :=
  if pyIn " file" line && pyIn "changed" line then
    { files_changed := (searchNumWord "file".data line.data).getD stats.files_changed
      insertions := (searchNumWord "insertion".data line.data).getD stats.insertions
      deletions := (searchNumWord "deletion".data line.data).getD stats.deletions }
  else stats

/-- `get_commit_stats` on the subprocess outcome: `none` models
`CalledProcessError` (zeros), `some lines` is the stdout split into
lines, folded through the parsing loop starting from all-zero stats. -/
def get_commit_stats (out : Option (List String)) : CommitStats :=
  match out with
  | none => ⟨0, 0, 0⟩
  | some lines => lines.foldl statLineUpdate ⟨0, 0, 0⟩

/-! ## Message enhancer (`LLMEnhancer`, lines 18–105) -/

/-- Outcome of one HTTP POST to the chat-completions endpoint:
a response with its status code and (when the JSON walk
`result['choices'][0]['message']['content']` succeeds) the extracted
content, or a raised exception. -/
inductive NetResult where
  | response (status : Nat) (content : Option String)
  | failure
deriving DecidableEq

/-- Python truthiness of `self.api_key`: configured iff present and
non-empty. -/
def keyPresent (apiKey : Option String) : Bool :=
  match apiKey with
  | none => false
  | some s => !s.isEmpty

/-- Python's `str.strip()`. -/
def pyStrip (s : String) : String := s.trim

/-- `LLMEnhancer.enhance_commit_message`: passthrough without a key;
on HTTP 200 the stripped extracted content (a failing JSON walk raises
and is caught, returning the original); any other status or an exception
returns the original message. -/
def enhance_commit_message (apiKey : Option String) (net : NetResult) (message : String) : String :=
  if !keyPresent apiKey then message
  else
    match net with
    | NetResult.response status content =>
      if status = 200 then
        match content with
        | some c => pyStrip c
        | none => message
      else message
    | NetResult.failure => message

/-- The prompt `generate_summary` builds from the first (at most) 10
commits' author/message pairs. -/
def summaryPrompt (commits : List Commit) : String :=
  let commit_texts := (commits.take 10).map (fun c => "- " ++ c.author ++ ": " ++ c.message)
  "基于以下本周的 git commit 记录，请生成一段简洁的中文工作总结（50-100字），突出主要成果和进展：\n\n"
    ++ String.intercalate "\n" commit_texts
    ++ "\n\n请直接返回总结内容，不要添加任何标题或解释。"

/-- `LLMEnhancer.generate_summary`: empty text without a key or on an
empty commit list; otherwise it sends `summaryPrompt commits` (the
network is a function from the sent prompt to an outcome) and returns
the stripped content on HTTP 200, empty text on anything else. -/
def generate_summary (apiKey : Option String) (net : String → NetResult)
    (commits : List Commit) : String :=
  if !keyPresent apiKey || commits.isEmpty then ""
  else
    match net (summaryPrompt commits) with
    | NetResult.response status content =>
      if status = 200 then
        match content with
        | some c => pyStrip c
        | none => ""
      else ""
    | NetResult.failure => ""

example : get_commit_stats (some [" 5 files changed, 120 insertions(+), 30 deletions(-)"])
    = ⟨5, 120, 30⟩ := by decide
example : get_commit_stats (some [" 2 files changed"]) = ⟨2, 0, 0⟩ := by decide
example : get_commit_stats (some ["random line"]) = ⟨0, 0, 0⟩ := by decide
example : get_commit_stats none = ⟨0, 0, 0⟩ := by decide

/-! ## Report builder (`generate_report`, lines 264–358) -/

/-- The ambient configuration and external effects `generate_report`
reads: the author filter, the `use_llm` flag, and oracles for the three
external calls (`llm.enhance_commit_message`, `llm.generate_summary`,
`get_commit_stats` per commit hash). -/
structure ReportEnv where
  author : Option String
  use_llm : Bool
  rewriteMsg : String → String
  summarize : List Commit → String
  stats : String → CommitStats

/-- Python truthiness of `self.author`. -/
def authorPresent (a : Option String) : Bool :=
  match a with
  | none => false
  | some s => !s.isEmpty

/-- `enhance_commit_messages` (lines 221–233): identity when LLM use is
off; otherwise copy each record, stash the old message under
`original_message`, overwrite `message` with the rewritten text. -/
def enhance_commit_messages (use_llm : Bool) (rewriteMsg : String → String)
    (commits : List Commit) : List Commit :=
  if !use_llm then commits
  else commits.map (fun c =>
    { c with original_message := some c.message, message := rewriteMsg c.message })

/-- One step of building the `commits_by_date` dict: append to the
existing entry for the commit's date, or add a new key at the end
(Python dicts keep insertion order). -/
def insertByDate (m : List (String × List Commit)) (c : Commit) : List (String × List Commit) :=
  if m.any (fun p => p.1 == c.date) then
    m.map (fun p => if p.1 == c.date then (p.1, p.2 ++ [c]) else p)
  else m ++ [(c.date, [c])]

/-- The `commits_by_date` dict, as an ordered association list. -/
def commits_by_date (commits : List Commit) : List (String × List Commit) :=
  commits.foldl insertByDate []

/-- Dict lookup `commits_by_date[date]` (empty on a missing key, which
the loop never hits). -/
def lookupDate (m : List (String × List Commit)) (d : String) : List Commit :=
  match m.find? (fun p => p.1 == d) with
  | none => []
  | some p => p.2

/-- Python's string comparison `a <= b`: lexicographic by code point. -/
def pyStrLe : List Char → List Char → Bool
  | [], _ => true
  | _ :: _, [] => false
  | a :: as, b :: bs => if a = b then pyStrLe as bs else decide (a < b)

/-- The descending order used by `sorted(..., reverse=True)`:
`dateDescOrder a b` holds when `b <= a` as Python strings. -/
def dateDescOrder (a b : String) : Prop :=
  pyStrLe b.data a.data = true

instance : DecidableRel dateDescOrder :=
  fun a b => inferInstanceAs (Decidable (pyStrLe b.data a.data = true))

/-- `sorted(commits_by_date.keys(), reverse=True)`: the distinct dates
in descending lexicographic order (a stable sort of distinct keys by a
linear order is the unique sorted arrangement, so insertion sort agrees
with Python's sort here). -/
def sortedDatesDesc (commits : List Commit) : List String :=
  List.insertionSort dateDescOrder ((commits_by_date commits).map Prod.fst)

/-- The `total_files/total_insertions/total_deletions` accumulation loop
(lines 290–298), summing each commit's stats in order. -/
def reportTotals (stats : String → CommitStats) (commits : List Commit) : Nat × Nat × Nat :=
  commits.foldl
    (fun acc c =>
      (acc.1 + (stats c.hash).files_changed,
       acc.2.1 + (stats c.hash).insertions,
       acc.2.2 + (stats c.hash).deletions))
    (0, 0, 0)

/-- Title line(s) of the report. -/
def headerLines (author : Option String) : List String :=
  if authorPresent author then ["# 本周工作周报 - " ++ author.getD ""]
  else ["# 本周工作周报"]

/-- The optional `## 🎯 本周总结` section (only with LLM use and a truthy
summary text). -/
def summarySection (env : ReportEnv) (commits : List Commit) : List String :=
  if env.use_llm then
    let s := env.summarize commits
    if !s.isEmpty then ["## 🎯 本周总结", "", s, ""] else []
  else []

/-- The `## 📊 统计概览` section. -/
def statsSection (stats : String → CommitStats) (commits : List Commit) : List String :=
  let t := reportTotals stats commits
  ["## 📊 统计概览", "",
   "- **提交次数**: " ++ toString commits.length ++ " 次",
   "- **文件变更**: " ++ toString t.1 ++ " 个文件",
   "- **代码新增**: +" ++ toString t.2.1 ++ " 行",
   "- **代码删除**: -" ++ toString t.2.2 ++ " 行",
   ""]

/-- The lines one category contributes to `## 📋 工作分类`: nothing when
its bucket is empty, else a `###` heading with the count, one bullet per
commit (plus the original message when enhancement marked it), then a
blank line. -/
def categoryLines (use_llm : Bool) (cat : String) (cs : List Commit) : List String :=
  if cs.isEmpty then []
  else
    ("### " ++ cat ++ " (" ++ toString cs.length ++ ")")
      :: (cs.flatMap (fun c =>
            if use_llm && c.original_message.isSome then
              ["- **" ++ c.author ++ "**: " ++ c.message,
               "  *原始*: " ++ c.original_message.getD ""]
            else
              ["- **" ++ c.author ++ "**: " ++ c.message]))
      ++ [""]

/-- The `## 📋 工作分类` section. -/
def categorySection (use_llm : Bool) (commits : List Commit) : List String :=
  ["## 📋 工作分类", ""]
    ++ (categorize_commits commits).flatMap (fun p => categoryLines use_llm p.1 p.2)

/-- The `## 📅 每日详情` section: dates descending, each date's commits in
dict (= fetch) order, each annotated with its individual stats. -/
def dateSection (stats : String → CommitStats) (commits : List Commit) : List String :=
  ["## 📅 每日详情", ""]
    ++ (sortedDatesDesc commits).flatMap (fun d =>
         ("### " ++ d)
           :: ((lookupDate (commits_by_date commits) d).map (fun c =>
                "- **" ++ c.author ++ "** (" ++ toString (stats c.hash).files_changed
                  ++ " 文件, +" ++ toString (stats c.hash).insertions ++ "/-"
                  ++ toString (stats c.hash).deletions ++ "): " ++ c.message))
           ++ [""])

/-- The `report` list of lines for a non-empty commit sequence, after the
optional enhancement pass. -/
def reportLines (env : ReportEnv) (commits0 : List Commit) : List String :=
  let commits := enhance_commit_messages env.use_llm env.rewriteMsg commits0
  headerLines env.author ++ [""]
    ++ ["**统计时间**: " ++ ((commits.head?.map Commit.date).getD "")
          ++ " ~ " ++ ((commits.getLast?.map Commit.date).getD ""), ""]
    ++ summarySection env commits
    ++ statsSection env.stats commits
    ++ categorySection env.use_llm commits
    ++ dateSection env.stats commits

/-- `generate_report`: the fixed "no commits" document on an empty input,
otherwise the joined report lines. -/
def generate_report (env : ReportEnv) (commits : List Commit) : String :=
  if commits.isEmpty then
    if authorPresent env.author then
      "# 本周工作周报 - " ++ env.author.getD "" ++ "\n\n本周暂无代码提交记录。\n"
    else
      "# 本周工作周报\n\n本周暂无代码提交记录。\n"
  else
    String.intercalate "\n" (reportLines env commits)

example : classify "Fix login bug" = "Bug修复" := by decide
example : classify "add new dashboard" = "功能开发" := by decide
example : classify "fix: add tests" = "功能开发" := by decide
example : classify "hello world" = "其他" := by decide
example : wellFormedLine "h|a|2024-01-01|msg" = true := by decide
example : wellFormedLine "h|a|msg" = false := by decide
example : (get_commits_from_lines ["h|a|d|m", "bad", "h2|b|d2|m2"]).length = 2 := by decide

/-! ## Concrete demonstration inputs (used by witness statements) -/

def demoFix : Commit := ⟨"a1", "A", "2024-01-10", "fix: add unit tests", none⟩

def demoAlice : Commit := ⟨"a1", "Alice", "2024-01-10", "fix login bug", none⟩

def demoBob : Commit := ⟨"b2", "Bob", "2024-01-10", "add new dashboard", none⟩

/-- The two-commit scenario of the spec's end-to-end property. -/
def demoCommits : List Commit := [demoAlice, demoBob]

/-- No LLM, no author filter, all-zero stats for every hash. -/
def demoEnv : ReportEnv := ⟨none, false, id, fun _ => "", fun _ => ⟨0, 0, 0⟩⟩

def demoTail : Commit := ⟨"x9", "X", "2024-01-09", "extra commit", none⟩

/-! ## Helper lemmas -/

/-- Unfolding lemma for `classify` with the let-bound lower-cased message
inlined. -/
theorem classify_eq (message : String) :
    classify message =
      (if matchesAny featureKeywords (pyLower message) then "功能开发"
       else if matchesAny fixKeywords (pyLower message) then "Bug修复"
       else if matchesAny docKeywords (pyLower message) then "文档更新"
       else if matchesAny refactorKeywords (pyLower message) then "代码优化"
       else if matchesAny testKeywords (pyLower message) then "测试相关"
       else "其他") := rfl

/-- Every message is filed under one of the six labels. -/
theorem classify_mem_labels (m : String) : classify m ∈ categoryLabels := by
  rw [classify_eq]
  split_ifs <;> decide

theorem sum_map_addNat {α : Type} (l : List α) (f g : α → Nat) :
    (l.map (fun a => f a + g a)).sum = (l.map f).sum + (l.map g).sum := by
  induction l with
  | nil => rfl
  | cons a t ih =>
    simp only [List.map_cons, List.sum_cons, ih]
    omega

theorem sum_indicator_zero (L : List String) (x : String) (hx : x ∉ L) :
    (L.map (fun cat => if x = cat then 1 else 0)).sum = 0 := by
  induction L with
  | nil => rfl
  | cons a t ih =>
    simp only [List.map_cons, List.sum_cons]
    rw [if_neg (fun h => hx (by rw [h]; exact List.mem_cons_self a t)),
      ih (fun h => hx (List.mem_cons_of_mem _ h))]

theorem sum_indicator_one :
    ∀ (L : List String) (x : String), L.Nodup → x ∈ L →
      (L.map (fun cat => if x = cat then 1 else 0)).sum = 1
  | [], _, _, hx => by cases hx
  | a :: t, x, hn, hx => by
    simp only [List.map_cons, List.sum_cons]
    rcases List.mem_cons.mp hx with h | h
    · rw [if_pos h,
        sum_indicator_zero t x (by rw [h]; exact (List.nodup_cons.mp hn).1)]
    · have hne : x ≠ a := fun he => (List.nodup_cons.mp hn).1 (he ▸ h)
      rw [if_neg hne, sum_indicator_one t x (List.nodup_cons.mp hn).2 h]

theorem length_filter_cons {α : Type} (p : α → Bool) (c : α) (cs : List α) :
    (List.filter p (c :: cs)).length
      = (if p c then 1 else 0) + (List.filter p cs).length := by
  by_cases h : p c <;> simp [List.filter_cons, h, Nat.add_comm]

/-- The bucket sizes of `categorize_commits` add up to the number of
commits. -/
theorem bucket_sizes_sum (commits : List Commit) :
    ((categorize_commits commits).map (fun p => p.2.length)).sum = commits.length := by
  unfold categorize_commits
  rw [List.map_map]
  show (categoryLabels.map
    (fun cat => (commits.filter (fun c => classify c.message == cat)).length)).sum
      = commits.length
  induction commits with
  | nil => simp
  | cons c cs ih =>
    have step : ∀ cat ∈ categoryLabels,
        (List.filter (fun c' => classify c'.message == cat) (c :: cs)).length
          = (if classify c.message = cat then 1 else 0)
            + (List.filter (fun c' => classify c'.message == cat) cs).length := by
      intro cat _
      rw [length_filter_cons]
      congr 1
      by_cases h : classify c.message = cat <;> simp [h]
    rw [List.map_congr_left step, sum_map_addNat, ih,
      sum_indicator_one categoryLabels (classify c.message) (by decide)
        (classify_mem_labels _)]
    simp [Nat.add_comm]

/-- C1: categorization is total with fixed priority: the six bucket sizes
sum to the input length, a commit sits in a bucket exactly when `classify`
of its message is that bucket's label (so each commit is in exactly one
bucket), every message classifies to one of the six labels, and a message
matching both the bug-fix and the feature keyword lists is filed under
the feature bucket, feature keywords being tested first. -/
theorem categorize_commits_total_priority :
    ∀ commits : List Commit,
      (((categorize_commits commits).map (fun p => p.2.length)).sum = commits.length)
      ∧ (∀ p, p ∈ categorize_commits commits →
          ∀ c, c ∈ p.2 ↔ (c ∈ commits ∧ classify c.message = p.1))
      ∧ (∀ m, classify m ∈ categoryLabels)
      ∧ (∀ m, matchesAny fixKeywords (pyLower m) = true →
          matchesAny featureKeywords (pyLower m) = true →
          classify m = "功能开发") := by
  intro commits
  refine ⟨bucket_sizes_sum commits, ?_, classify_mem_labels, ?_⟩
  · intro p hp c
    rcases List.mem_map.mp hp with ⟨cat, _, rfl⟩
    simp [List.mem_filter]
  · intro m _ hfeat
    rw [classify_eq, if_pos hfeat]

/-- C1 witness at concrete inputs. -/
theorem categorize_commits_total_priority_witness :
    classify "fix: add unit tests" = "功能开发"
      ∧ ((categorize_commits [demoFix]).map (fun p => p.2.length)).sum = 1
      ∧ (demoFix ∈ (("功能开发", [demoFix]) : String × List Commit).2 ↔
          (demoFix ∈ [demoFix] ∧ classify demoFix.message = "功能开发")) :=
  ⟨(categorize_commits_total_priority []).2.2.2 "fix: add unit tests"
      (by decide) (by decide),
   (categorize_commits_total_priority [demoFix]).1,
   (categorize_commits_total_priority [demoFix]).2.1
      (("功能开发", [demoFix]) : String × List Commit) (by decide) demoFix⟩

/-- A line parses iff it satisfies the well-formedness guard. -/
theorem parseLogLine_isSome (l : String) :
    (parseLogLine l).isSome = wellFormedLine l := by
  by_cases he : l.isEmpty
  · simp [parseLogLine, wellFormedLine, he]
  · simp only [parseLogLine, wellFormedLine, he, if_neg, Bool.not_false, Bool.true_and]
    rcases h : splitLimit '|' 3 l.data with _ | ⟨a, _ | ⟨b, _ | ⟨c, _ | ⟨d, _ | ⟨e, t⟩⟩⟩⟩⟩ <;>
      simp [h]

/-- C2: the parsed commit count equals the number of well-formed lines
(non-empty, splitting into exactly four pipe-delimited fields under
`split('|', 3)`), and a malformed line is skipped without affecting the
parsing of the remaining lines. -/
theorem log_parse_counts :
    ∀ lines : List String,
      ((get_commits_from_lines lines).length
        = (lines.filter wellFormedLine).length)
      ∧ (∀ l ls, wellFormedLine l = false →
          get_commits_from_lines (l :: ls) = get_commits_from_lines ls) := by
  intro lines
  constructor
  · induction lines with
    | nil => rfl
    | cons l ls ih =>
      unfold get_commits_from_lines at *
      rw [List.filterMap_cons]
      cases hp : parseLogLine l with
      | none =>
        have hw : wellFormedLine l = false := by rw [← parseLogLine_isSome, hp]; rfl
        simp [List.filter_cons, hw, ih]
      | some c =>
        have hw : wellFormedLine l = true := by rw [← parseLogLine_isSome, hp]; rfl
        simp [List.filter_cons, hw, ih]
  · intro l ls hw
    unfold get_commits_from_lines
    rw [List.filterMap_cons]
    cases hp : parseLogLine l with
    | none => rfl
    | some c =>
      have : (parseLogLine l).isSome = true := by rw [hp]; rfl
      rw [parseLogLine_isSome, hw] at this
      cases this

/-- C2 witness: a two-pipe line is skipped, leaving the rest parsed. -/
theorem log_parse_counts_witness :
    get_commits_from_lines ["no pipes here", "h|a|2024-01-10|msg"]
      = get_commits_from_lines ["h|a|2024-01-10|msg"] :=
  (log_parse_counts []).2 "no pipes here" ["h|a|2024-01-10|msg"] (by decide)

/-- Characterization of the substring test: `pat` occurs in `cs` iff `cs`
decomposes around it. -/
theorem containsSub_iff (cs pat : List Char) :
    containsSub cs pat = true ↔ ∃ l r, cs = l ++ pat ++ r := by
  induction cs with
  | nil =>
    simp only [containsSub, List.isEmpty_iff]
    constructor
    · rintro rfl
      exact ⟨[], [], rfl⟩
    · rintro ⟨l, r, h⟩
      rcases List.append_eq_nil.mp h.symm with ⟨h1, -⟩
      exact (List.append_eq_nil.mp h1).2
  | cons c rest ih =>
    simp only [containsSub, Bool.or_eq_true, ih]
    constructor
    · rintro (hpre | ⟨l, r, h⟩)
      · obtain ⟨t, ht⟩ := List.isPrefixOf_iff_prefix.mp hpre
        exact ⟨[], t, by simp [← ht]⟩
      · exact ⟨c :: l, r, by simp [h]⟩
    · rintro ⟨l, r, h⟩
      cases l with
      | nil =>
        left
        exact List.isPrefixOf_iff_prefix.mpr ⟨r, by simpa using h.symm⟩
      | cons x l' =>
        right
        rcases List.cons.injEq .. ▸ h with ⟨-, hrest⟩
        exact ⟨l', r, hrest⟩

theorem takeDigits_eq : ∀ cs : List Char, (takeDigits cs).1 ++ (takeDigits cs).2 = cs
  | [] => rfl
  | c :: rest => by
    by_cases h : c.isDigit
    · simp [takeDigits, h, takeDigits_eq rest]
    · simp [takeDigits, h]

/-- A successful `(\d+)\s+word` search implies the word occurs in the line. -/
theorem searchNumWord_some_contains (word : List Char) :
    ∀ (cs : List Char) (n : Nat),
      searchNumWord word cs = some n → containsSub cs word = true := by
  intro cs
  induction cs with
  | nil => intro n h; simp [searchNumWord] at h
  | cons c rest ih =>
    intro n h
    simp only [searchNumWord] at h
    by_cases hd : c.isDigit
    · rw [if_pos hd] at h
      by_cases hw : wsThenWord word (takeDigits (c :: rest)).2 = true
      · rcases hp : (takeDigits (c :: rest)).2 with _ | ⟨s, t⟩
        · rw [hp] at hw; simp [wsThenWord] at hw
        · rw [hp] at hw
          simp only [wsThenWord, Bool.and_eq_true] at hw
          obtain ⟨-, hpre⟩ := hw
          obtain ⟨r', hr'⟩ := List.isPrefixOf_iff_prefix.mp hpre
          rw [containsSub_iff]
          have ht : t = List.takeWhile isSpaceChar t ++ (word ++ r') := by
            conv_lhs => rw [← List.takeWhile_append_dropWhile (p := isSpaceChar) (l := t)]
            rw [hr']
          refine ⟨(takeDigits (c :: rest)).1 ++ s :: t.takeWhile isSpaceChar, r', ?_⟩
          conv_lhs => rw [← takeDigits_eq (c :: rest)]
          rw [hp]
          conv_lhs => rw [ht]
          simp
      · rw [if_neg hw] at h
        have := ih n h
        simp [containsSub, this]
    · rw [if_neg hd] at h
      have := ih n h
      simp [containsSub, this]

theorem searchNumWord_none_of_not_contains (word cs : List Char)
    (h : containsSub cs word = false) : searchNumWord word cs = none := by
  cases hs : searchNumWord word cs with
  | none => rfl
  | some n => rw [searchNumWord_some_contains word cs n hs] at h; cases h

theorem containsSub_drop_head (cs : List Char) (x : Char) (pat : List Char)
    (h : containsSub cs (x :: pat) = true) : containsSub cs pat = true := by
  rw [containsSub_iff] at h ⊢
  obtain ⟨l, r, rfl⟩ := h
  exact ⟨l ++ [x], r, by simp⟩

/-- Failing the `' file' in line and 'changed' in line` guard. -/
theorem statGuard_false (l : String)
    (h : ¬(pyIn "file" l = true ∧ pyIn "changed" l = true)) :
    (pyIn " file" l && pyIn "changed" l) = false := by
  by_cases hc : pyIn "changed" l = true
  · by_cases hf : pyIn " file" l = true
    · exfalso
      apply h
      refine ⟨?_, hc⟩
      have hdata : (" file".data : List Char) = ' ' :: "file".data := rfl
      unfold pyIn at hf ⊢
      rw [hdata] at hf
      exact containsSub_drop_head _ _ _ hf
    · simp only [Bool.not_eq_true] at hf
      simp [hf]
  · simp only [Bool.not_eq_true] at hc
    simp [hc]

theorem statLineUpdate_skip (stats : CommitStats) (l : String)
    (h : (pyIn " file" l && pyIn "changed" l) = false) :
    statLineUpdate stats l = stats := by
  simp [statLineUpdate, h]

theorem foldl_statLineUpdate_skip :
    ∀ (lines : List String) (stats : CommitStats),
      (∀ l ∈ lines, (pyIn " file" l && pyIn "changed" l) = false) →
      lines.foldl statLineUpdate stats = stats
  | [], _, _ => rfl
  | l :: ls, stats, h => by
    rw [List.foldl_cons, statLineUpdate_skip stats l (h l (List.mem_cons_self l ls))]
    exact foldl_statLineUpdate_skip ls stats (fun l' hl' => h l' (List.mem_cons_of_mem _ hl'))

/-- C3: stat parsing defaults every absent sub-pattern to zero: the result
fields are never negative, a failed subprocess yields all zeros, an output
in which no line contains both "file" and "changed" yields all zeros, and
a single matching stat line carrying only a file count N (no "insertion"
or "deletion" substring) yields files_changed = N with zero insertions
and deletions. -/
theorem stat_parse_defaults :
    ∀ out : Option (List String),
      ((get_commit_stats out).files_changed ≥ 0
        ∧ (get_commit_stats out).insertions ≥ 0
        ∧ (get_commit_stats out).deletions ≥ 0)
      ∧ (get_commit_stats none = ⟨0, 0, 0⟩)
      ∧ (∀ lines, out = some lines →
          (∀ l ∈ lines, ¬(pyIn "file" l = true ∧ pyIn "changed" l = true)) →
          get_commit_stats out = ⟨0, 0, 0⟩)
      ∧ (∀ l n, pyIn " file" l = true → pyIn "changed" l = true →
          searchNumWord "file".data l.data = some n →
          pyIn "insertion" l = false → pyIn "deletion" l = false →
          get_commit_stats (some [l]) = ⟨n, 0, 0⟩) := by
  intro out
  refine ⟨⟨Nat.zero_le _, Nat.zero_le _, Nat.zero_le _⟩, rfl, ?_, ?_⟩
  · rintro lines rfl hno
    show lines.foldl statLineUpdate ⟨0, 0, 0⟩ = ⟨0, 0, 0⟩
    exact foldl_statLineUpdate_skip lines ⟨0, 0, 0⟩
      (fun l hl => statGuard_false l (hno l hl))
  · intro l n hf hc hsearch hni hnd
    have hins : searchNumWord "insertion".data l.data = none :=
      searchNumWord_none_of_not_contains _ _ hni
    have hdel : searchNumWord "deletion".data l.data = none :=
      searchNumWord_none_of_not_contains _ _ hnd
    show List.foldl statLineUpdate ⟨0, 0, 0⟩ [l] = ⟨n, 0, 0⟩
    simp [statLineUpdate, hf, hc, hsearch, hins, hdel]

/-- C3 witness: a deletion-only stat line `" 2 files changed"`. -/
theorem stat_parse_defaults_witness :
    (pyIn " file" " 2 files changed" = true
      ∧ pyIn "changed" " 2 files changed" = true
      ∧ searchNumWord "file".data " 2 files changed".data = some 2
      ∧ pyIn "insertion" " 2 files changed" = false
      ∧ pyIn "deletion" " 2 files changed" = false)
    ∧ get_commit_stats (some [" 2 files changed"]) = ⟨2, 0, 0⟩
    ∧ get_commit_stats (some ["random output"]) = ⟨0, 0, 0⟩ :=
  ⟨⟨by decide, by decide, by decide, by decide, by decide⟩,
   (stat_parse_defaults (some [" 2 files changed"])).2.2.2 " 2 files changed" 2
     (by decide) (by decide) (by decide) (by decide) (by decide),
   (stat_parse_defaults (some ["random output"])).2.2.1 ["random output"] rfl
     (by decide)⟩

/-- C4: the enhancer degrades gracefully: with no configured credential
`rewrite` is the identity and `summarize` is empty; with any credential a
non-200 response or a raised exception leaves `rewrite` at the original
message and `summarize` at empty text; both are total functions, so no
error propagates. -/
theorem enhancer_graceful :
    ∀ (m : String) (k : Option String) (net0 : NetResult)
      (netf : String → NetResult) (commits : List Commit),
      (enhance_commit_message none net0 m = m)
      ∧ (generate_summary none netf commits = "")
      ∧ (∀ s oc, s ≠ 200 →
          enhance_commit_message k (NetResult.response s oc) m = m)
      ∧ (enhance_commit_message k NetResult.failure m = m)
      ∧ (∀ s oc, s ≠ 200 →
          generate_summary k (fun _ => NetResult.response s oc) commits = "")
      ∧ (generate_summary k (fun _ => NetResult.failure) commits = "") := by
  intro m k net0 netf commits
  refine ⟨?_, ?_, ?_, ?_, ?_, ?_⟩
  · simp [enhance_commit_message, keyPresent]
  · simp [generate_summary, keyPresent]
  · intro s oc hs
    by_cases hk : keyPresent k <;> simp [enhance_commit_message, hk, hs]
  · by_cases hk : keyPresent k <;> simp [enhance_commit_message, hk]
  · intro s oc hs
    by_cases hk : keyPresent k
    · by_cases he : commits.isEmpty <;> simp [generate_summary, hk, he, hs]
    · simp [generate_summary, hk]
  · by_cases hk : keyPresent k
    · by_cases he : commits.isEmpty <;> simp [generate_summary, hk, he]
    · simp [generate_summary, hk]

/-- C4 witness at concrete inputs (status 404 and an exception). -/
theorem enhancer_graceful_witness :
    enhance_commit_message (some "sk-key") (NetResult.response 404 (some "x")) "fix bug" = "fix bug"
      ∧ enhance_commit_message (some "sk-key") NetResult.failure "fix bug" = "fix bug"
      ∧ enhance_commit_message none (NetResult.response 200 (some "x")) "fix bug" = "fix bug"
      ∧ generate_summary none (fun _ => NetResult.response 200 (some "x")) [demoFix] = ""
      ∧ generate_summary (some "sk-key") (fun _ => NetResult.response 500 none) [demoFix] = ""
      ∧ generate_summary (some "sk-key") (fun _ => NetResult.failure) [demoFix] = "" :=
  ⟨(enhancer_graceful "fix bug" (some "sk-key") NetResult.failure
      (fun _ => NetResult.failure) []).2.2.1 404 (some "x") (by decide),
   (enhancer_graceful "fix bug" (some "sk-key") NetResult.failure
      (fun _ => NetResult.failure) []).2.2.2.1,
   (enhancer_graceful "fix bug" none (NetResult.response 200 (some "x"))
      (fun _ => NetResult.failure) []).1,
   (enhancer_graceful "fix bug" none NetResult.failure
      (fun _ => NetResult.response 200 (some "x")) [demoFix]).2.1,
   (enhancer_graceful "fix bug" (some "sk-key") NetResult.failure
      (fun _ => NetResult.failure) [demoFix]).2.2.2.2.1 500 none (by decide),
   (enhancer_graceful "fix bug" (some "sk-key") NetResult.failure
      (fun _ => NetResult.failure) [demoFix]).2.2.2.2.2⟩

/-- C5: an empty commit sequence short-circuits to the fixed "no commits
this period" document: with a (truthy) author filter the heading carries
the author name (which occurs in the output) and with no filter the plain
heading is used; the fixed document contains no section heading marker
`##`, so no summary, statistics, category or per-date section. -/
theorem empty_report_fixed :
    ∀ env : ReportEnv,
      (env.author = none →
        generate_report env [] = "# 本周工作周报\n\n本周暂无代码提交记录。\n"
          ∧ pyIn "##" (generate_report env []) = false)
      ∧ (∀ a, env.author = some a → a ≠ "" →
        generate_report env []
            = "# 本周工作周报 - " ++ a ++ "\n\n本周暂无代码提交记录。\n"
          ∧ pyIn a (generate_report env []) = true) := by
  intro env
  constructor
  · intro h
    have : generate_report env [] = "# 本周工作周报\n\n本周暂无代码提交记录。\n" := by
      simp [generate_report, authorPresent, h]
    exact ⟨this, by rw [this]; decide⟩
  · intro a ha hne
    have hp : authorPresent (some a) = true := by
      show (!a.isEmpty) = true
      have : a.isEmpty = false := by
        rw [Bool.eq_false_iff]
        intro h
        exact hne ((String.isEmpty_iff a).mp h)
      rw [this]
      rfl
    have heq : generate_report env []
        = "# 本周工作周报 - " ++ a ++ "\n\n本周暂无代码提交记录。\n" := by
      simp [generate_report, ha, hp]
    refine ⟨heq, ?_⟩
    rw [heq]
    unfold pyIn
    rw [containsSub_iff]
    exact ⟨("# 本周工作周报 - ").data, ("\n\n本周暂无代码提交记录。\n").data,
      by simp⟩

/-- C5 witness with author `"Alice"`. -/
theorem empty_report_fixed_witness :
    (generate_report ⟨some "Alice", false, id, fun _ => "", fun _ => ⟨0, 0, 0⟩⟩ []
        = "# 本周工作周报 - Alice\n\n本周暂无代码提交记录。\n"
      ∧ pyIn "Alice"
          (generate_report ⟨some "Alice", false, id, fun _ => "", fun _ => ⟨0, 0, 0⟩⟩ [])
        = true)
    ∧ (generate_report ⟨none, false, id, fun _ => "", fun _ => ⟨0, 0, 0⟩⟩ []
        = "# 本周工作周报\n\n本周暂无代码提交记录。\n"
      ∧ pyIn "##"
          (generate_report ⟨none, false, id, fun _ => "", fun _ => ⟨0, 0, 0⟩⟩ [])
        = false) :=
  ⟨(empty_report_fixed ⟨some "Alice", false, id, fun _ => "", fun _ => ⟨0, 0, 0⟩⟩).2
      "Alice" rfl (by decide),
   (empty_report_fixed ⟨none, false, id, fun _ => "", fun _ => ⟨0, 0, 0⟩⟩).1 rfl⟩

/-- `pyStrLe` agrees with the negation of strict lexicographic order. -/
theorem pyStrLe_iff_not_lex :
    ∀ as bs : List Char, pyStrLe as bs = true ↔ ¬ List.Lex (· < ·) bs as
  | [], _ => iff_of_true rfl (List.Lex.not_nil_right _ _)
  | _ :: _, [] => iff_of_false (by simp [pyStrLe]) (fun h => h List.Lex.nil)
  | a :: as, b :: bs => by
    by_cases hab : a = b
    · subst hab
      rw [show pyStrLe (a :: as) (a :: bs) = pyStrLe as bs from by simp [pyStrLe]]
      rw [pyStrLe_iff_not_lex as bs]
      constructor
      · intro h hlex
        exact h (List.Lex.cons_iff.mp hlex)
      · intro h hlex
        exact h (List.Lex.cons hlex)
    · rw [show pyStrLe (a :: as) (b :: bs) = decide (a < b) from by simp [pyStrLe, hab]]
      rw [decide_eq_true_eq]
      constructor
      · intro hlt hlex
        cases hlex with
        | cons h => exact hab rfl
        | rel h => exact absurd h (lt_asymm hlt)
      · intro h
        rcases lt_trichotomy a b with h1 | h1 | h1
        · exact h1
        · exact absurd h1 hab
        · exact absurd (List.Lex.rel h1) h

/-- `pyStrLe` on the character data is exactly `≤` on strings. -/
theorem pyStrLe_iff_le (a b : String) : pyStrLe a.data b.data = true ↔ a ≤ b := by
  rw [String.le_iff_toList_le]
  show pyStrLe a.data b.data = true ↔ a.data ≤ b.data
  rw [← not_lt]
  exact pyStrLe_iff_not_lex a.data b.data

theorem keys_insertByDate (m : List (String × List Commit)) (c : Commit) :
    (insertByDate m c).map Prod.fst =
      if m.any (fun p => p.1 == c.date) then m.map Prod.fst
      else m.map Prod.fst ++ [c.date] := by
  unfold insertByDate
  by_cases h : m.any (fun p => p.1 == c.date)
  · rw [if_pos h, if_pos h, List.map_map]
    apply List.map_congr_left
    intro p _
    by_cases hp : p.1 = c.date <;> simp [hp]
  · rw [if_neg h, if_neg h]
    simp

theorem lookup_insertByDate (m : List (String × List Commit)) (c : Commit) (d : String) :
    lookupDate (insertByDate m c) d =
      if d = c.date then lookupDate m d ++ [c] else lookupDate m d := by
  unfold insertByDate lookupDate
  by_cases h : m.any (fun p => p.1 == c.date)
  · rw [if_pos h, List.find?_map]
    have hqg : ((fun p : String × List Commit => p.1 == d)
          ∘ fun p => if p.1 == c.date then (p.1, p.2 ++ [c]) else p)
        = fun p => p.1 == d := by
      funext p
      by_cases hp : p.1 = c.date <;> simp [hp]
    rw [hqg]
    cases hf : m.find? (fun p => p.1 == d) with
    | none =>
      have hne : d ≠ c.date := by
        rintro rfl
        rw [List.find?_eq_none] at hf
        rcases List.any_eq_true.mp h with ⟨p, hpm, hpd⟩
        exact hf p hpm hpd
      simp [hne]
    | some q =>
      have hqd : q.1 = d := by simpa using List.find?_some hf
      by_cases hd : d = c.date
      · have hqc : q.1 = c.date := by rw [hqd, hd]
        simp [hd, hqc]
      · have hqc : q.1 ≠ c.date := by rw [hqd]; exact hd
        simp [hd, hqc]
  · rw [if_neg h, List.find?_append]
    by_cases hd : d = c.date
    · subst hd
      have hnone : m.find? (fun p => p.1 == c.date) = none := by
        rw [List.find?_eq_none]
        intro p hpm hpd
        exact h (List.any_eq_true.mpr ⟨p, hpm, hpd⟩)
      simp [hnone]
    · have hsingle : List.find? (fun p => p.1 == d) [(c.date, [c])] = none := by
        have : (c.date == d) = false := by
          simp only [beq_eq_false_iff_ne, ne_eq]
          exact fun h' => hd h'.symm
        simp [List.find?, this]
      rw [hsingle]
      simp [hd]

theorem lookupDate_foldl :
    ∀ (commits : List Commit) (m : List (String × List Commit)) (d : String),
      lookupDate (commits.foldl insertByDate m) d
        = lookupDate m d ++ commits.filter (fun c => c.date == d)
  | [], m, d => by simp
  | c :: cs, m, d => by
    rw [List.foldl_cons, lookupDate_foldl cs (insertByDate m c) d,
      lookup_insertByDate]
    by_cases hd : d = c.date
    · have : (c.date == d) = true := by simp [hd]
      simp [hd, List.filter_cons, this]
    · have : (c.date == d) = false := by
        simp only [beq_eq_false_iff_ne, ne_eq]
        exact fun h' => hd h'.symm
      simp [hd, List.filter_cons, this]

theorem mem_keys_foldl :
    ∀ (commits : List Commit) (m : List (String × List Commit)) (d : String),
      (d ∈ (commits.foldl insertByDate m).map Prod.fst
        ↔ (d ∈ m.map Prod.fst ∨ ∃ c ∈ commits, c.date = d))
  | [], m, d => by simp
  | c :: cs, m, d => by
    rw [List.foldl_cons, mem_keys_foldl cs (insertByDate m c) d, keys_insertByDate]
    by_cases h : m.any (fun p => p.1 == c.date)
    · rw [if_pos h]
      have hcd : c.date ∈ m.map Prod.fst := by
        rcases List.any_eq_true.mp h with ⟨p, hpm, hpd⟩
        have : p.1 = c.date := by simpa using hpd
        rw [← this]
        exact List.mem_map_of_mem Prod.fst hpm
      constructor
      · rintro (hm | ⟨c', hc', rfl⟩)
        · exact Or.inl hm
        · exact Or.inr ⟨c', List.mem_cons_of_mem _ hc', rfl⟩
      · rintro (hm | ⟨c', hc', rfl⟩)
        · exact Or.inl hm
        · rcases List.mem_cons.mp hc' with rfl | hc''
          · exact Or.inl hcd
          · exact Or.inr ⟨c', hc'', rfl⟩
    · rw [if_neg h, List.mem_append, List.mem_singleton]
      constructor
      · rintro ((hm | hd) | ⟨c', hc', rfl⟩)
        · exact Or.inl hm
        · exact Or.inr ⟨c, List.mem_cons_self c cs, hd.symm⟩
        · exact Or.inr ⟨c', List.mem_cons_of_mem _ hc', rfl⟩
      · rintro (hm | ⟨c', hc', rfl⟩)
        · exact Or.inl (Or.inl hm)
        · rcases List.mem_cons.mp hc' with rfl | hc''
          · exact Or.inl (Or.inr rfl)
          · exact Or.inr ⟨c', hc'', rfl⟩

theorem keys_nodup_foldl :
    ∀ (commits : List Commit) (m : List (String × List Commit)),
      (m.map Prod.fst).Nodup → ((commits.foldl insertByDate m).map Prod.fst).Nodup
  | [], _, h => h
  | c :: cs, m, h => by
    rw [List.foldl_cons]
    apply keys_nodup_foldl cs
    rw [keys_insertByDate]
    by_cases hin : m.any (fun p => p.1 == c.date)
    · rw [if_pos hin]
      exact h
    · rw [if_neg hin]
      have hnotin : c.date ∉ m.map Prod.fst := by
        intro hmem
        rcases List.mem_map.mp hmem with ⟨p, hpm, hpd⟩
        exact hin (List.any_eq_true.mpr ⟨p, hpm, by simp [hpd]⟩)
      simp [List.nodup_append, h, hnotin]

/-- C6: in the per-date section, the iterated dates are the distinct
commit dates sorted descending (regardless of input order), and each
date's group is exactly the commits carrying that date in fetch order. -/
theorem date_grouping_sorted_desc :
    ∀ commits : List Commit,
      List.Sorted (fun a b : String => a ≥ b) (sortedDatesDesc commits)
      ∧ (sortedDatesDesc commits).Nodup
      ∧ (∀ d, d ∈ sortedDatesDesc commits ↔ ∃ c ∈ commits, c.date = d)
      ∧ (∀ d, lookupDate (commits_by_date commits) d
            = commits.filter (fun c => c.date == d)) := by
  intro commits
  have hkeys_nodup : ((commits_by_date commits).map Prod.fst).Nodup :=
    keys_nodup_foldl commits [] (by simp)
  refine ⟨?_, ?_, ?_, ?_⟩
  · haveI : IsTrans String dateDescOrder := ⟨fun a b c hab hbc => by
      unfold dateDescOrder at *
      rw [pyStrLe_iff_le] at *
      exact le_trans hbc hab⟩
    haveI : IsTotal String dateDescOrder := ⟨fun a b => by
      unfold dateDescOrder
      rw [pyStrLe_iff_le, pyStrLe_iff_le]
      exact le_total b a⟩
    have hs := List.sorted_insertionSort dateDescOrder
      ((commits_by_date commits).map Prod.fst)
    exact hs.imp (fun {a b} h => (pyStrLe_iff_le b a).mp h)
  · exact ((List.perm_insertionSort dateDescOrder _).nodup_iff).mpr hkeys_nodup
  · intro d
    rw [sortedDatesDesc, List.mem_insertionSort]
    exact mem_keys_foldl commits [] d |>.trans (by simp)
  · intro d
    have := lookupDate_foldl commits [] d
    simpa using this

theorem reportTotals_general (stats : String → CommitStats) :
    ∀ (commits : List Commit) (i1 i2 i3 : Nat),
      commits.foldl (fun acc c =>
          (acc.1 + (stats c.hash).files_changed,
           acc.2.1 + (stats c.hash).insertions,
           acc.2.2 + (stats c.hash).deletions)) (i1, i2, i3)
        = (i1 + (commits.map (fun c => (stats c.hash).files_changed)).sum,
           i2 + (commits.map (fun c => (stats c.hash).insertions)).sum,
           i3 + (commits.map (fun c => (stats c.hash).deletions)).sum)
  | [], i1, i2, i3 => by simp
  | c :: cs, i1, i2, i3 => by
    rw [List.foldl_cons,
      reportTotals_general stats cs (i1 + (stats c.hash).files_changed)
        (i2 + (stats c.hash).insertions) (i3 + (stats c.hash).deletions)]
    simp only [List.map_cons, List.sum_cons, Prod.mk.injEq]
    omega

/-- The accumulation loop computes the three sums of per-commit stats. -/
theorem reportTotals_eq (stats : String → CommitStats) (commits : List Commit) :
    reportTotals stats commits
      = ((commits.map (fun c => (stats c.hash).files_changed)).sum,
         (commits.map (fun c => (stats c.hash).insertions)).sum,
         (commits.map (fun c => (stats c.hash).deletions)).sum) := by
  unfold reportTotals
  rw [reportTotals_general stats commits 0 0 0]
  simp

theorem enhance_length (u : Bool) (rewriteMsg : String → String) (commits : List Commit) :
    (enhance_commit_messages u rewriteMsg commits).length = commits.length := by
  unfold enhance_commit_messages
  by_cases hu : u <;> simp [hu]

theorem enhance_map_hash (u : Bool) (rewriteMsg : String → String) (commits : List Commit) :
    (enhance_commit_messages u rewriteMsg commits).map Commit.hash
      = commits.map Commit.hash := by
  unfold enhance_commit_messages
  by_cases hu : u <;> simp [hu, List.map_map]

theorem mem_reportLines_of_mem_statsSection (env : ReportEnv) (commits : List Commit)
    (x : String)
    (h : x ∈ statsSection env.stats
        (enhance_commit_messages env.use_llm env.rewriteMsg commits)) :
    x ∈ reportLines env commits := by
  simp only [reportLines, List.mem_append]
  tauto

/-- C7: the statistics section reports a commit count equal to the input
length and files/insertions/deletions totals equal to the sums of the
per-commit stats; in particular, the all-zero two-commit scenario shows
`提交次数: 2 次` and `文件变更: 0 个文件`. -/
theorem stats_section_totals :
    (∀ (env : ReportEnv) (commits : List Commit), commits ≠ [] →
      (("- **提交次数**: " ++ toString commits.length ++ " 次")
          ∈ reportLines env commits
        ∧ ("- **文件变更**: "
            ++ toString ((commits.map (fun c => (env.stats c.hash).files_changed)).sum)
            ++ " 个文件") ∈ reportLines env commits
        ∧ ("- **代码新增**: +"
            ++ toString ((commits.map (fun c => (env.stats c.hash).insertions)).sum)
            ++ " 行") ∈ reportLines env commits
        ∧ ("- **代码删除**: -"
            ++ toString ((commits.map (fun c => (env.stats c.hash).deletions)).sum)
            ++ " 行") ∈ reportLines env commits))
    ∧ ("- **提交次数**: 2 次" ∈ reportLines demoEnv demoCommits
        ∧ "- **文件变更**: 0 个文件" ∈ reportLines demoEnv demoCommits) := by
  constructor
  · intro env commits _
    have hlen : (enhance_commit_messages env.use_llm env.rewriteMsg commits).length
        = commits.length := enhance_length _ _ _
    have hhash : (enhance_commit_messages env.use_llm env.rewriteMsg commits).map Commit.hash
        = commits.map Commit.hash := enhance_map_hash _ _ _
    have hsum : ∀ f : CommitStats → Nat,
        ((enhance_commit_messages env.use_llm env.rewriteMsg commits).map
          (fun c => f (env.stats c.hash))).sum
          = (commits.map (fun c => f (env.stats c.hash))).sum := by
      intro f
      have h1 : ((enhance_commit_messages env.use_llm env.rewriteMsg commits).map
            (fun c => f (env.stats c.hash)))
          = ((enhance_commit_messages env.use_llm env.rewriteMsg commits).map
              Commit.hash).map (fun h => f (env.stats h)) := by
        rw [List.map_map]
        rfl
      rw [h1, hhash, List.map_map]
      rfl
    refine ⟨?_, ?_, ?_, ?_⟩ <;>
      · apply mem_reportLines_of_mem_statsSection
        simp [statsSection, reportTotals_eq, hlen, hsum]
  · exact ⟨by decide, by decide⟩

/-- C7 witness: the two-commit scenario instantiating the universal part. -/
theorem stats_section_totals_witness :
    ("- **提交次数**: " ++ toString demoCommits.length ++ " 次")
      ∈ reportLines demoEnv demoCommits :=
  (stats_section_totals.1 demoEnv demoCommits (by decide)).1

/-- C8: with enhancement on, `enhance_commit_messages` preserves length
and order, keeps each record's hash, author and date, and adds an
`original_message` field equal to the pre-enhancement message. -/
theorem enhance_commit_messages_frame :
    ∀ (rewriteMsg : String → String) (commits : List Commit),
      (enhance_commit_messages true rewriteMsg commits).length = commits.length
      ∧ (∀ i : Nat,
          ((enhance_commit_messages true rewriteMsg commits)[i]?).map Commit.hash
              = (commits[i]?).map Commit.hash
          ∧ ((enhance_commit_messages true rewriteMsg commits)[i]?).map Commit.author
              = (commits[i]?).map Commit.author
          ∧ ((enhance_commit_messages true rewriteMsg commits)[i]?).map Commit.date
              = (commits[i]?).map Commit.date
          ∧ ((enhance_commit_messages true rewriteMsg commits)[i]?).map
                Commit.original_message
              = (commits[i]?).map (fun c => some c.message)) := by
  intro rewriteMsg commits
  have hdef : enhance_commit_messages true rewriteMsg commits
      = commits.map (fun c =>
          { c with original_message := some c.message,
                   message := rewriteMsg c.message }) := by
    simp [enhance_commit_messages]
  refine ⟨by rw [hdef]; simp, ?_⟩
  intro i
  rw [hdef]
  refine ⟨?_, ?_, ?_, ?_⟩ <;>
    · rw [List.getElem?_map]
      cases commits[i]? <;> rfl

/-- C9: the summary prompt depends only on the first 10 commits, and
summarizing an empty commit list yields empty text. -/
theorem summary_prompt_first10 :
    (∀ l1 l2 : List Commit, l1.take 10 = l2.take 10 →
        summaryPrompt l1 = summaryPrompt l2)
    ∧ (∀ (k : Option String) (net : String → NetResult),
        generate_summary k net [] = "") := by
  constructor
  · intro l1 l2 h
    unfold summaryPrompt
    rw [h]
  · intro k net
    simp [generate_summary]

/-- C9 witness: an 11th commit does not change the prompt. -/
theorem summary_prompt_first10_witness :
    summaryPrompt (List.replicate 10 demoFix ++ [demoTail])
        = summaryPrompt (List.replicate 10 demoFix)
      ∧ generate_summary (some "sk-key") (fun _ => NetResult.failure) [] = "" :=
  ⟨summary_prompt_first10.1 (List.replicate 10 demoFix ++ [demoTail])
      (List.replicate 10 demoFix) (by decide),
   summary_prompt_first10.2 (some "sk-key") (fun _ => NetResult.failure)⟩

/-- C10: the category dict always carries all six labels in order, while
the report's category section renders a bucket's heading (with its commit
count) exactly when the bucket is non-empty: empty buckets contribute no
lines at all. -/
theorem category_section_omits_empty :
    ∀ (use_llm : Bool) (commits : List Commit),
      ((categorize_commits commits).map Prod.fst = categoryLabels)
      ∧ (∀ p, p ∈ categorize_commits commits →
          ((p.2 = [] → categoryLines use_llm p.1 p.2 = [])
          ∧ (p.2 ≠ [] → ∃ body, categoryLines use_llm p.1 p.2
              = ("### " ++ p.1 ++ " (" ++ toString p.2.length ++ ")") :: body)))
      ∧ (categorySection use_llm commits
          = ["## 📋 工作分类", ""]
            ++ (categorize_commits commits).flatMap
                (fun p => categoryLines use_llm p.1 p.2)) := by
  intro u commits
  refine ⟨?_, ?_, rfl⟩
  · unfold categorize_commits
    rw [List.map_map]
    exact List.map_id categoryLabels
  · intro p _
    constructor
    · intro h
      simp [categoryLines, h]
    · intro h
      have hne : p.2.isEmpty = false := by
        rw [Bool.eq_false_iff]
        intro he
        exact h (List.isEmpty_iff.mp he)
      refine ⟨(p.2.flatMap fun c =>
          if u && c.original_message.isSome then
            ["- **" ++ c.author ++ "**: " ++ c.message,
             "  *原始*: " ++ c.original_message.getD ""]
          else ["- **" ++ c.author ++ "**: " ++ c.message]) ++ [""], ?_⟩
      unfold categoryLines
      rw [if_neg (by simp [hne])]
      simp

/-- C10 witness on the two-commit scenario: the empty "其他" bucket
contributes nothing while the non-empty feature bucket gets its heading. -/
theorem category_section_omits_empty_witness :
    categoryLines false "其他" [] = []
      ∧ (∃ body, categoryLines false "功能开发" [demoBob]
          = ("### " ++ "功能开发" ++ " (" ++ toString ([demoBob] : List Commit).length
              ++ ")") :: body) :=
  ⟨((category_section_omits_empty false demoCommits).2.1
      (("其他", []) : String × List Commit) (by decide)).1 rfl,
   ((category_section_omits_empty false demoCommits).2.1
      (("功能开发", [demoBob]) : String × List Commit) (by decide)).2 (by decide)⟩
